import Mathlib

/-!
Shallow embedding of `src/kalman/kalman_filter.h` (namespace `baboon_tracking`):
a steady-state Kalman filter with continuous-to-discrete conversion, an
observability precondition check, a Riccati-based gain synthesis pipeline, and
an online predict/correct recursion.

Real `double` arithmetic is modelled exactly over `ℚ`.  The five numerical
kernels that the code delegates to the trusted linear-algebra library
(matrix exponential, eigen-decomposition, rank-revealing decomposition, the
discrete algebraic Riccati equation solver, and the LDLT linear solve) are
modelled as an injected capability record `Numerics`, mirroring the library
boundary of the source: every theorem below is about how the repository's own
code combines these delegated operations.
-/

namespace baboon_tracking

open Matrix

/-- The five delegated numerical-linear-algebra operations consumed by the
filter: dense matrix exponential (`Eigen::MatrixExponential`), eigenvalues of a
real square matrix as (re, im) pairs (`Eigen::EigenSolver`), numerical rank of
a complex `States x (States+Inputs)` matrix (`Eigen::ColPivHouseholderQR`), the
discrete algebraic Riccati solver (`drake::math::DiscreteAlgebraicRiccatiEquation`),
and the LDLT linear solve (`Eigen::LDLT::solve`). -/
structure Numerics where
  mexp : ∀ {n : Type} [Fintype n] [DecidableEq n], Matrix n n ℚ → Matrix n n ℚ
  eigenvalues : ∀ {n : ℕ}, Matrix (Fin n) (Fin n) ℚ → Fin n → ℚ × ℚ
  rank : ∀ {n m : ℕ}, Matrix (Fin n) (Fin n ⊕ Fin m) (ℚ × ℚ) → ℕ
  dare : ∀ {n m : ℕ}, Matrix (Fin n) (Fin n) ℚ → Matrix (Fin n) (Fin m) ℚ →
    Matrix (Fin n) (Fin n) ℚ → Matrix (Fin m) (Fin m) ℚ → Matrix (Fin n) (Fin n) ℚ
  solve : ∀ {n m : ℕ}, Matrix (Fin n) (Fin n) ℚ → Matrix (Fin n) (Fin m) ℚ →
    Matrix (Fin n) (Fin m) ℚ

/-- The explicit symmetrization `(M + Mᵀ) / 2.0` applied by both A/Q
discretization variants. -/
def symmetrize {n : Type} (M : Matrix n n ℚ) : Matrix n n ℚ :=
  ((1 : ℚ) / 2) • (M + M.transpose)

/-- The complex matrix `[λI − A | B]` assembled inside the stabilizability
loop (`E << es.eigenvalues()[i] * Identity - A, B`).  Complex numbers are
(re, im) pairs; since `A` and `B` are real and the identity is scaled by `λ`,
each entry is written directly. -/
def stabilizability_matrix {States Inputs : ℕ}
    (A : Matrix (Fin States) (Fin States) ℚ)
    (B : Matrix (Fin States) (Fin Inputs) ℚ) (lam : ℚ × ℚ) :
    Matrix (Fin States) (Fin (States) ⊕ Fin Inputs) (ℚ × ℚ) :=
  Matrix.of fun r c =>
    match c with
    | Sum.inl j => ((if r = j then lam.1 else 0) - A r j, if r = j then lam.2 else 0)
    | Sum.inr j => (B r j, 0)

/-- Body of the per-eigenvalue check in `is_stabilizable`: eigenvalues with
`re² + im² < 1` are skipped (`continue`), otherwise the pair fails exactly
when the rank of `[λI − A | B]` is below `States` (`return false`). -/
def stability_ok {States Inputs : ℕ} (num : Numerics)
    (A : Matrix (Fin States) (Fin States) ℚ)
    (B : Matrix (Fin States) (Fin Inputs) ℚ) (lam : ℚ × ℚ) : Bool :=
  if lam.1 * lam.1 + lam.2 * lam.2 < 1 then true
  else decide (¬ num.rank (stabilizability_matrix A B lam) < States)

/-- `is_stabilizable(A, B)`: for each of the `States` eigenvalues reported by
the delegated eigensolver, run `stability_ok`; the pair is stabilizable when
no qualifying eigenvalue makes `[λI − A | B]` rank-deficient. -/
def is_stabilizable {States Inputs : ℕ} (num : Numerics)
    (A : Matrix (Fin States) (Fin States) ℚ)
    (B : Matrix (Fin States) (Fin Inputs) ℚ) : Bool :=
  (List.finRange States).all fun i => stability_ok num A B (num.eigenvalues A i)

/-- `discretize_A`: `discA = exp(A·dt)` via the delegated dense matrix
exponential (`(contA * dt).exp()`). -/
def discretize_A {States : ℕ} (num : Numerics)
    (cont_A : Matrix (Fin States) (Fin States) ℚ) (dt : ℚ) :
    Matrix (Fin States) (Fin States) ℚ :=
  num.mexp (dt • cont_A)

/-- `discretize_AQ` (exact variant): builds `M = [[-A, Q_sym], [0, Aᵀ]]`,
takes `Φ = exp(M·dt)`, extracts `Φ12` and `Φ22`, and returns
`discA = Φ22ᵀ` together with `discQ = symmetrize(discA·Φ12)`. -/
def discretize_AQ {States : ℕ} (num : Numerics)
    (cont_A cont_Q : Matrix (Fin States) (Fin States) ℚ) (dt : ℚ) :
    Matrix (Fin States) (Fin States) ℚ × Matrix (Fin States) (Fin States) ℚ :=
  let Q := symmetrize cont_Q
  let M := Matrix.fromBlocks (-cont_A) Q 0 cont_A.transpose
  let phi := num.mexp (dt • M)
  let phi12 := phi.toBlocks₁₂
  let phi22 := phi.toBlocks₂₂
  let disc_A := phi22.transpose
  (disc_A, symmetrize (disc_A * phi12))

/-- Loop state of the truncated-series discretization: the running term
`last_term`, the running coefficient `last_coeff`, the `Aᵀ` power accumulator
`Atn`, and the series accumulator `phi12`. -/
structure taylor_state (States : ℕ) where
  last_term : Matrix (Fin States) (Fin States) ℚ
  last_coeff : ℚ
  Atn : Matrix (Fin States) (Fin States) ℚ
  phi12 : Matrix (Fin States) (Fin States) ℚ

/-- One refinement step of the truncated series, at loop index `i`:
`T ← -A·T + Q_sym·Atn`, `c ← c·(dt/i)`, `Φ12 += T·c`, `Atn ← Atn·Aᵀ`. -/
def taylor_step {States : ℕ} (cont_A Q : Matrix (Fin States) (Fin States) ℚ)
    (dt : ℚ) (s : taylor_state States) (i : ℕ) : taylor_state States :=
  let T := -cont_A * s.last_term + Q * s.Atn
  let c := s.last_coeff * (dt / (i : ℚ))
  ⟨T, c, s.Atn * cont_A.transpose, s.phi12 + c • T⟩

/-- `discretize_AQ_taylor`: symmetrizes `Q`, initializes
`last_term = Q_sym`, `last_coeff = dt`, `Atn = Aᵀ`, `Φ12 = Q_sym·dt`, runs the
refinement loop `for (int i = 2; i < 6; ++i)`, then returns
`discA = exp(A·dt)` and `discQ = symmetrize(discA·Φ12)`. -/
def discretize_AQ_taylor {States : ℕ} (num : Numerics)
    (cont_A cont_Q : Matrix (Fin States) (Fin States) ℚ) (dt : ℚ) :
    Matrix (Fin States) (Fin States) ℚ × Matrix (Fin States) (Fin States) ℚ :=
  let Q := symmetrize cont_Q
  let s := [2, 3, 4, 5].foldl (taylor_step cont_A Q dt) ⟨Q, dt, cont_A.transpose, dt • Q⟩
  let disc_A := discretize_A num cont_A dt
  (disc_A, symmetrize (disc_A * s.phi12))

/-- `discretize_R`: `discR = R / dt`. -/
def discretize_R {Outputs : ℕ} (R : Matrix (Fin Outputs) (Fin Outputs) ℚ)
    (dt : ℚ) : Matrix (Fin Outputs) (Fin Outputs) ℚ :=
  (1 / dt) • R

/-- `make_cov_matrix`: the diagonal covariance matrix whose `i`-th diagonal
entry is `pow(stdDevs[i], 2)`. -/
def make_cov_matrix {N : ℕ} (stdDevs : Fin N → ℚ) : Matrix (Fin N) (Fin N) ℚ :=
  Matrix.diagonal fun i => (stdDevs i) ^ 2

/-- Innovation covariance `S = C·P·Cᵀ + discR` computed by the constructor. -/
def innovation_cov {States Outputs : ℕ}
    (C : Matrix (Fin Outputs) (Fin States) ℚ)
    (P : Matrix (Fin States) (Fin States) ℚ)
    (disc_R : Matrix (Fin Outputs) (Fin Outputs) ℚ) :
    Matrix (Fin Outputs) (Fin Outputs) ℚ :=
  C * P * C.transpose + disc_R

/-- The gain computation `K = (Sᵀ.solve(C·Pᵀ))ᵀ` from the constructor:
`K = P·Cᵀ·S⁻¹` is reformulated as the linear system `Sᵀ·Kᵀ = C·Pᵀ`, solved by
the delegated LDLT factorization, and transposed. -/
def gain {States Outputs : ℕ} (num : Numerics)
    (C : Matrix (Fin Outputs) (Fin States) ℚ)
    (P : Matrix (Fin States) (Fin States) ℚ)
    (S : Matrix (Fin Outputs) (Fin Outputs) ℚ) :
    Matrix (Fin States) (Fin Outputs) ℚ :=
  (num.solve S.transpose (C * P.transpose)).transpose

/-- The filter's stored data: continuous `A` and `C`, the cached nominal
discretization `disc_A_nominal`, the steady-state gain `K`, and the state
estimate `x_hat`. -/
structure kalman_filter (States Outputs : ℕ) where
  A : Matrix (Fin States) (Fin States) ℚ
  C : Matrix (Fin Outputs) (Fin States) ℚ
  disc_A_nominal : Matrix (Fin States) (Fin States) ℚ
  K : Matrix (Fin States) (Fin Outputs) ℚ
  x_hat : Fin States → ℚ

/-- The constructor's error message for an unobservable system. -/
def unobservable_msg : String :=
  "The system passed to the Kalman filter is not observable!"

/-- The constructor pipeline: build `Q`/`R` from the std-dev vectors,
discretize `(A, Q)` by the truncated series and `R` by scaling, run the
observability check `is_stabilizable(discAᵀ, Cᵀ)` (throwing on failure), solve
the Riccati equation for `P`, form `S`, solve for `K`, and `reset()` the state
estimate to zero.  Throwing `std::invalid_argument` is modelled as
`Except.error`. -/
def construct {States Outputs : ℕ} (num : Numerics)
    (A : Matrix (Fin States) (Fin States) ℚ)
    (C : Matrix (Fin Outputs) (Fin States) ℚ)
    (state_std_devs : Fin States → ℚ) (measurement_std_devs : Fin Outputs → ℚ)
    (dt : ℚ) : Except String (kalman_filter States Outputs) :=
  let cont_Q := make_cov_matrix state_std_devs
  let cont_R := make_cov_matrix measurement_std_devs
  let disc_AQ := discretize_AQ_taylor num A cont_Q dt
  let disc_A := disc_AQ.1
  let disc_Q := disc_AQ.2
  let disc_R := discretize_R cont_R dt
  if is_stabilizable num disc_A.transpose C.transpose then
    let P := num.dare disc_A.transpose C.transpose disc_Q disc_R
    let S := innovation_cov C P disc_R
    Except.ok ⟨A, C, disc_A, gain num C P S, 0⟩
  else
    Except.error unobservable_msg

/-- `predict(double dt)`: re-discretize `A` at the given `dt` and propagate
`x̂ ← discA · x̂`. -/
def kalman_filter.predict_dt {States Outputs : ℕ} (num : Numerics)
    (f : kalman_filter States Outputs) (dt : ℚ) : kalman_filter States Outputs :=
  { f with x_hat := (discretize_A num f.A dt).mulVec f.x_hat }

/-- `predict()` (no argument): `x̂ ← disc_A_nominal · x̂` using the cached
nominal discretization. -/
def kalman_filter.predict {States Outputs : ℕ}
    (f : kalman_filter States Outputs) : kalman_filter States Outputs :=
  { f with x_hat := f.disc_A_nominal.mulVec f.x_hat }

/-- `correct(y)`: `x̂ ← x̂ + K·(y − C·x̂)`. -/
def kalman_filter.correct {States Outputs : ℕ}
    (f : kalman_filter States Outputs) (y : Fin Outputs → ℚ) :
    kalman_filter States Outputs :=
  { f with x_hat := f.x_hat + f.K.mulVec (y - f.C.mulVec f.x_hat) }

/-- `reset()`: zeroes the state estimate. -/
def kalman_filter.reset {States Outputs : ℕ}
    (f : kalman_filter States Outputs) : kalman_filter States Outputs :=
  { f with x_hat := 0 }

/-- `set_x_hat(x_hat)`: whole-vector overwrite of the state estimate. -/
def kalman_filter.set_x_hat {States Outputs : ℕ}
    (f : kalman_filter States Outputs) (v : Fin States → ℚ) :
    kalman_filter States Outputs :=
  { f with x_hat := v }

/-- `set_x_hat(i, value)`: single-element overwrite of the state estimate. -/
def kalman_filter.set_x_hat_at {States Outputs : ℕ}
    (f : kalman_filter States Outputs) (i : Fin States) (value : ℚ) :
    kalman_filter States Outputs :=
  { f with x_hat := Function.update f.x_hat i value }

/-- Accessor `K()`. -/
def kalman_filter.get_K {States Outputs : ℕ}
    (f : kalman_filter States Outputs) : Matrix (Fin States) (Fin Outputs) ℚ :=
  f.K

/-- Accessor `K(i, j)`. -/
def kalman_filter.get_K_at {States Outputs : ℕ}
    (f : kalman_filter States Outputs) (i : Fin States) (j : Fin Outputs) : ℚ :=
  f.K i j

/-- Accessor `x_hat()`. -/
def kalman_filter.get_x_hat {States Outputs : ℕ}
    (f : kalman_filter States Outputs) : Fin States → ℚ :=
  f.x_hat

/-- Accessor `x_hat(i)`. -/
def kalman_filter.get_x_hat_at {States Outputs : ℕ}
    (f : kalman_filter States Outputs) (i : Fin States) : ℚ :=
  f.x_hat i

/-- Term `Tᵢ` of the noise-propagation series as the spec states it:
`T₁ = Q_sym` and `Tᵢ = -A·Tᵢ₋₁ + Q_sym·(Aᵀ)^(i-1)`; `series_term k` is
`T (k+1)`. -/
def series_term {States : ℕ} (cont_A Q : Matrix (Fin States) (Fin States) ℚ) :
    ℕ → Matrix (Fin States) (Fin States) ℚ
  | 0 => Q
  | k + 1 => -cont_A * series_term cont_A Q k + Q * cont_A.transpose ^ (k + 1)

/-- A concrete instantiation of the delegated numerics used to evaluate the
pipeline on closed inputs: the exponential is the identity map, all reported
eigenvalues are `0` (strictly inside the unit circle), ranks are `0`, the
Riccati solution is `0`, and the linear solve returns its right-hand side. -/
def trivial_numerics : Numerics where
  mexp := fun M => M
  eigenvalues := fun _ _ => (0, 0)
  rank := fun _ => 0
  dare := fun _ _ _ _ => 0
  solve := fun _ B => B

instance {ε α : Type} [DecidableEq ε] [DecidableEq α] : DecidableEq (Except ε α) :=
  fun x y =>
    match x, y with
    | Except.error e, Except.error e' => decidable_of_iff (e = e') (by simp)
    | Except.ok a, Except.ok a' => decidable_of_iff (a = a') (by simp)
    | Except.error _, Except.ok _ => isFalse (by simp)
    | Except.ok _, Except.error _ => isFalse (by simp)

instance {States Outputs : ℕ} : DecidableEq (kalman_filter States Outputs) := by
  intro f g
  exact decidable_of_iff
    (f.A = g.A ∧ f.C = g.C ∧ f.disc_A_nominal = g.disc_A_nominal ∧
      f.K = g.K ∧ f.x_hat = g.x_hat)
    (by cases f; cases g; simp)

/-- Concrete Riccati solution used by the gain-algebra witness: the value the
trivial numerics' solver reports for the 1-state, 1-output all-zero system. -/
def wP : Matrix (Fin 1) (Fin 1) ℚ :=
  trivial_numerics.dare
    ((discretize_AQ_taylor trivial_numerics (0 : Matrix (Fin 1) (Fin 1) ℚ)
      (make_cov_matrix ![0]) 1).1).transpose
    (0 : Matrix (Fin 1) (Fin 1) ℚ).transpose
    (discretize_AQ_taylor trivial_numerics (0 : Matrix (Fin 1) (Fin 1) ℚ)
      (make_cov_matrix ![0]) 1).2
    (discretize_R (make_cov_matrix ![1]) 1)

/-- Concrete innovation covariance for the gain-algebra witness. -/
def wS : Matrix (Fin 1) (Fin 1) ℚ :=
  innovation_cov (0 : Matrix (Fin 1) (Fin 1) ℚ) wP
    (discretize_R (make_cov_matrix ![1]) 1)

/-- The filter instance the constructor produces for the witness inputs. -/
def wfilt : kalman_filter 1 1 :=
  ⟨0, 0, 0, 0, 0⟩

/-- Transposing a symmetrized matrix gives it back. -/
theorem symmetrize_transpose {n : Type} (M : Matrix n n ℚ) :
    (symmetrize M).transpose = symmetrize M := by
  unfold symmetrize
  rw [Matrix.transpose_smul, Matrix.transpose_add, Matrix.transpose_transpose,
    add_comm]

/-- The per-eigenvalue check returns `false` exactly for a qualifying
eigenvalue (squared magnitude at least 1) whose pencil loses row rank. -/
theorem stability_ok_eq_false_iff {States Inputs : ℕ} (num : Numerics)
    (A : Matrix (Fin States) (Fin States) ℚ)
    (B : Matrix (Fin States) (Fin Inputs) ℚ) (lam : ℚ × ℚ) :
    stability_ok num A B lam = false ↔
      1 ≤ lam.1 * lam.1 + lam.2 * lam.2 ∧
        num.rank (stabilizability_matrix A B lam) < States := by
  unfold stability_ok
  split
  · rename_i h
    simp only [Bool.true_eq_false, false_iff]
    rintro ⟨h1, -⟩
    exact absurd h (not_lt.mpr h1)
  · rename_i h
    rw [decide_eq_false_iff_not, not_not]
    exact ⟨fun hr => ⟨not_lt.mp h, hr⟩, fun hr => hr.2⟩

/-- C5: `is_stabilizable(A, B)` returns false if and only if some eigenvalue
λ of `A` with `|λ|² ≥ 1` makes the complex `States×(States+Inputs)` matrix
`[λI − A | B]` have rank strictly less than `States`; every eigenvalue with
`|λ| < 1` is skipped and imposes no condition, and if all qualifying
eigenvalues yield full row rank the function returns true. -/
theorem is_stabilizable_eq_false_iff {States Inputs : ℕ} (num : Numerics)
    (A : Matrix (Fin States) (Fin States) ℚ)
    (B : Matrix (Fin States) (Fin Inputs) ℚ) :
    is_stabilizable num A B = false ↔
      ∃ i : Fin States,
        1 ≤ (num.eigenvalues A i).1 * (num.eigenvalues A i).1 +
            (num.eigenvalues A i).2 * (num.eigenvalues A i).2 ∧
          num.rank (stabilizability_matrix A B (num.eigenvalues A i)) < States := by
  unfold is_stabilizable
  rw [Bool.eq_false_iff, Ne, List.all_eq_true]
  constructor
  · intro h
    by_contra hc
    push_neg at hc
    apply h
    intro i _
    by_contra hne
    have hso : stability_ok num A B (num.eigenvalues A i) = false :=
      Bool.eq_false_iff.mpr hne
    have hq := (stability_ok_eq_false_iff num A B (num.eigenvalues A i)).mp hso
    exact absurd hq.2 (not_lt.mpr (hc i hq.1))
  · rintro ⟨i, hi⟩ h
    have hti := h i (List.mem_finRange i)
    rw [← stability_ok_eq_false_iff num A B (num.eigenvalues A i)] at hi
    simp [hi] at hti

/-- C7: for every input `cont_Q` — including asymmetric ones — the `disc_Q`
produced by either discretization variant is exactly symmetric, because both
variants symmetrize the input as `(Q + Qᵀ)/2` and symmetrize the final
product before returning it. -/
theorem disc_Q_symmetric {States : ℕ} (num : Numerics)
    (cont_A cont_Q : Matrix (Fin States) (Fin States) ℚ) (dt : ℚ) :
    ((discretize_AQ num cont_A cont_Q dt).2).transpose =
        (discretize_AQ num cont_A cont_Q dt).2 ∧
      ((discretize_AQ_taylor num cont_A cont_Q dt).2).transpose =
        (discretize_AQ_taylor num cont_A cont_Q dt).2 ∧
      (symmetrize cont_Q).transpose = symmetrize cont_Q := by
  refine ⟨?_, ?_, symmetrize_transpose cont_Q⟩ <;>
    simp [discretize_AQ, discretize_AQ_taylor, symmetrize_transpose]

/-- C9: the covariance builder returns a diagonal matrix whose `i`-th diagonal
entry equals the square of the `i`-th input and whose off-diagonal entries are
all zero; because each entry is squared, every diagonal entry is non-negative
even for negative inputs. -/
theorem make_cov_matrix_spec {N : ℕ} (stdDevs : Fin N → ℚ) (i j : Fin N) :
    make_cov_matrix stdDevs i i = (stdDevs i) ^ 2 ∧
      (i ≠ j → make_cov_matrix stdDevs i j = 0) ∧
      0 ≤ make_cov_matrix stdDevs i i := by
  refine ⟨?_, ?_, ?_⟩
  · simp [make_cov_matrix]
  · intro h
    simp [make_cov_matrix, Matrix.diagonal_apply_ne _ h]
  · simp only [make_cov_matrix, Matrix.diagonal_apply_eq]
    positivity

/-- C9 witness: concrete evaluation of the covariance builder at the
(deliberately sign-mixed) std-dev vector `[3, -2]`. -/
theorem make_cov_matrix_spec_witness :
    ((0 : Fin 2) ≠ 1) ∧ make_cov_matrix (![3, -2] : Fin 2 → ℚ) 0 1 = 0 ∧
      make_cov_matrix (![3, -2] : Fin 2 → ℚ) 0 0 = 9 := by
  refine ⟨by decide, (make_cov_matrix_spec ![3, -2] 0 1).2.1 (by decide), ?_⟩
  rw [(make_cov_matrix_spec (![3, -2] : Fin 2 → ℚ) 0 1).1]
  norm_num

/-- C10: for every constructed filter state, a measurement that exactly
matches the predicted measurement `C·x̂` is a fixed point of the correction
step, regardless of the value of `K`. -/
theorem correct_exact_measurement_fixed_point {States Outputs : ℕ}
    (f : kalman_filter States Outputs) :
    (f.correct (f.C.mulVec f.x_hat)).x_hat = f.x_hat := by
  simp [kalman_filter.correct]

/-- C4: `predict(dt)` sets `x̂` to `exp(A·dt)·x̂` using the A-only
discretization of the stored continuous `A` (leaving `K` and the stored
matrices unchanged); `predict()` with no argument sets `x̂` to
`disc_A_nominal·x̂` using the cached nominal discretization; and `correct(y)`
sets `x̂` to `x̂ + K·(y − C·x̂)`. -/
theorem predict_correct_spec {States Outputs : ℕ} (num : Numerics)
    (f : kalman_filter States Outputs) (dt : ℚ) (y : Fin Outputs → ℚ) :
    (kalman_filter.predict_dt num f dt).x_hat =
        (num.mexp (dt • f.A)).mulVec f.x_hat ∧
      (kalman_filter.predict_dt num f dt).x_hat =
        (discretize_A num f.A dt).mulVec f.x_hat ∧
      (kalman_filter.predict_dt num f dt).K = f.K ∧
      (kalman_filter.predict_dt num f dt).A = f.A ∧
      (kalman_filter.predict_dt num f dt).C = f.C ∧
      (kalman_filter.predict_dt num f dt).disc_A_nominal = f.disc_A_nominal ∧
      f.predict.x_hat = f.disc_A_nominal.mulVec f.x_hat ∧
      (f.correct y).x_hat = f.x_hat + f.K.mulVec (y - f.C.mulVec f.x_hat) := by
  exact ⟨rfl, rfl, rfl, rfl, rfl, rfl, rfl, rfl⟩

/-- C8: after construction succeeds, every runtime operation (predict with or
without `dt`, correct, reset, both `set_x_hat` overloads, and all accessors)
leaves `A`, `C`, `disc_A_nominal`, and `K` unchanged; `x̂` is the only field
any of these operations mutates, and immediately after construction (and
after every reset) `x̂` equals the zero vector. -/
theorem runtime_frame_conditions {States Outputs : ℕ} (num : Numerics)
    (f : kalman_filter States Outputs) (dt : ℚ) (y : Fin Outputs → ℚ)
    (v : Fin States → ℚ) (i : Fin States) (j : Fin Outputs) (c : ℚ)
    (A : Matrix (Fin States) (Fin States) ℚ)
    (C : Matrix (Fin Outputs) (Fin States) ℚ)
    (sd : Fin States → ℚ) (md : Fin Outputs → ℚ) (dt' : ℚ) :
    (kalman_filter.predict_dt num f dt).A = f.A ∧
      (kalman_filter.predict_dt num f dt).C = f.C ∧
      (kalman_filter.predict_dt num f dt).disc_A_nominal = f.disc_A_nominal ∧
      (kalman_filter.predict_dt num f dt).K = f.K ∧
      f.predict.A = f.A ∧ f.predict.C = f.C ∧
      f.predict.disc_A_nominal = f.disc_A_nominal ∧ f.predict.K = f.K ∧
      (f.correct y).A = f.A ∧ (f.correct y).C = f.C ∧
      (f.correct y).disc_A_nominal = f.disc_A_nominal ∧ (f.correct y).K = f.K ∧
      f.reset.A = f.A ∧ f.reset.C = f.C ∧
      f.reset.disc_A_nominal = f.disc_A_nominal ∧ f.reset.K = f.K ∧
      (f.set_x_hat v).A = f.A ∧ (f.set_x_hat v).C = f.C ∧
      (f.set_x_hat v).disc_A_nominal = f.disc_A_nominal ∧
      (f.set_x_hat v).K = f.K ∧
      (f.set_x_hat_at i c).A = f.A ∧ (f.set_x_hat_at i c).C = f.C ∧
      (f.set_x_hat_at i c).disc_A_nominal = f.disc_A_nominal ∧
      (f.set_x_hat_at i c).K = f.K ∧
      f.get_K = f.K ∧ f.get_K_at i j = f.K i j ∧
      f.get_x_hat = f.x_hat ∧ f.get_x_hat_at i = f.x_hat i ∧
      f.reset.x_hat = 0 ∧
      ((construct num A C sd md dt').toOption.map kalman_filter.x_hat).getD 0
        = 0 := by
  refine ⟨rfl, rfl, rfl, rfl, rfl, rfl, rfl, rfl, rfl, rfl, rfl, rfl, rfl,
    rfl, rfl, rfl, rfl, rfl, rfl, rfl, rfl, rfl, rfl, rfl, rfl, rfl, rfl,
    rfl, rfl, ?_⟩
  simp only [construct]
  split <;> rfl

/-- C2: construction raises the unobservable-system error and produces no
usable filter instance if and only if the stabilizability check applied to
`(discAᵀ, Cᵀ)` — where `discA` is the truncated-series discretization of `A`
at `dt` — returns false; on that failure no gain `K` is computed (the error
branch carries no filter). -/
theorem construct_unobservable_iff {States Outputs : ℕ} (num : Numerics)
    (A : Matrix (Fin States) (Fin States) ℚ)
    (C : Matrix (Fin Outputs) (Fin States) ℚ)
    (sd : Fin States → ℚ) (md : Fin Outputs → ℚ) (dt : ℚ) :
    (construct num A C sd md dt = Except.error unobservable_msg ↔
        is_stabilizable num
          ((discretize_AQ_taylor num A (make_cov_matrix sd) dt).1).transpose
          C.transpose = false) ∧
      ((construct num A C sd md dt).isOk = true ↔
        is_stabilizable num
          ((discretize_AQ_taylor num A (make_cov_matrix sd) dt).1).transpose
          C.transpose = true) := by
  simp only [construct]
  constructor
  · split
    · rename_i h
      constructor
      · intro hcon
        exact absurd hcon (by simp)
      · intro hfalse
        rw [h] at hfalse
        exact absurd hfalse (by decide)
    · rename_i h
      simp only [Bool.not_eq_true] at h
      exact ⟨fun _ => h, fun _ => rfl⟩
  · split
    · rename_i h
      exact ⟨fun _ => h, fun _ => rfl⟩
    · rename_i h
      simp only [Bool.not_eq_true] at h
      constructor
      · intro hok
        simp [Except.isOk, Except.toBool] at hok
      · intro htrue
        rw [h] at htrue
        exact absurd htrue (by decide)

/-- C1: at construction, after obtaining the Riccati fixed point `P`, the
filter computes the innovation covariance `S = C·P·Cᵀ + discR` and then
obtains the steady-state gain `K` by solving the linear system
`Sᵀ·Kᵀ = C·Pᵀ` (not by explicitly inverting `S`) and transposing the
solution, so that — assuming the delegated solver returns the exact
solution — `K·S = P·Cᵀ`. -/
theorem construct_gain_solves {States Outputs : ℕ} (num : Numerics)
    (A : Matrix (Fin States) (Fin States) ℚ)
    (C : Matrix (Fin Outputs) (Fin States) ℚ)
    (sd : Fin States → ℚ) (md : Fin Outputs → ℚ) (dt : ℚ)
    (f : kalman_filter States Outputs)
    (P : Matrix (Fin States) (Fin States) ℚ)
    (S : Matrix (Fin Outputs) (Fin Outputs) ℚ)
    (hP : P = num.dare
      ((discretize_AQ_taylor num A (make_cov_matrix sd) dt).1).transpose
      C.transpose (discretize_AQ_taylor num A (make_cov_matrix sd) dt).2
      (discretize_R (make_cov_matrix md) dt))
    (hS : S = innovation_cov C P (discretize_R (make_cov_matrix md) dt))
    (hok : construct num A C sd md dt = Except.ok f)
    (hsolve : S.transpose * num.solve S.transpose (C * P.transpose) =
      C * P.transpose) :
    f.K = gain num C P S ∧ f.K * S = P * C.transpose := by
  subst hP hS
  simp only [construct] at hok
  split at hok
  · have hf := Except.ok.inj hok
    subst hf
    refine ⟨rfl, ?_⟩
    show gain num C _ _ * _ = _
    unfold gain
    have h2 := congrArg Matrix.transpose hsolve
    simpa [Matrix.transpose_mul, Matrix.transpose_transpose] using h2
  · exact absurd hok (by simp)

/-- C1 witness: the 1-state, 1-output all-zero system under the trivial
numerics, for which the delegated solve is exact and the constructed gain
satisfies `K·S = P·Cᵀ`. -/
theorem construct_gain_solves_witness :
    construct trivial_numerics (0 : Matrix (Fin 1) (Fin 1) ℚ)
        (0 : Matrix (Fin 1) (Fin 1) ℚ) ![0] ![1] 1 = Except.ok wfilt ∧
      wfilt.K * wS = wP * (0 : Matrix (Fin 1) (Fin 1) ℚ).transpose := by
  have hQ : make_cov_matrix (![0] : Fin 1 → ℚ) = 0 := by
    ext i j
    fin_cases i
    fin_cases j
    simp [make_cov_matrix]
  have hA : discretize_AQ_taylor trivial_numerics (0 : Matrix (Fin 1) (Fin 1) ℚ)
      (make_cov_matrix ![0]) 1 = (0, 0) := by
    simp [discretize_AQ_taylor, taylor_step, List.foldl, discretize_A,
      symmetrize, trivial_numerics, hQ]
  have hstab : is_stabilizable trivial_numerics
      (0 : Matrix (Fin 1) (Fin 1) ℚ) (0 : Matrix (Fin 1) (Fin 1) ℚ) = true := by
    unfold is_stabilizable
    rw [List.all_eq_true]
    intro i _
    fin_cases i
    simp only [stability_ok, trivial_numerics]
    norm_num
  have hok : construct trivial_numerics (0 : Matrix (Fin 1) (Fin 1) ℚ)
      (0 : Matrix (Fin 1) (Fin 1) ℚ) ![0] ![1] 1 = Except.ok wfilt := by
    simp only [construct, hA]
    rw [if_pos (by simpa using hstab)]
    simp [gain, trivial_numerics, wfilt]
  have hsolve : wS.transpose *
      trivial_numerics.solve wS.transpose
        ((0 : Matrix (Fin 1) (Fin 1) ℚ) * wP.transpose) =
      (0 : Matrix (Fin 1) (Fin 1) ℚ) * wP.transpose := by
    simp [trivial_numerics]
  exact ⟨hok, (construct_gain_solves trivial_numerics 0 0 ![0] ![1] 1 wfilt wP
    wS rfl rfl hok hsolve).2⟩

/-- C3: the truncated-series discretization symmetrizes `Q`, initializes
`Φ12 = Q_sym·dt`, performs exactly the refinement steps `i = 2..5` inclusive
(5 total series terms, the i-th coefficient being `dt^i/i!` as produced by
the recurrence `c ← c·dt/i` from `c = dt`, the i-th term by
`T ← -A·T + Q_sym·(Aᵀ)^(i-1)` from `T = Q_sym`), and returns
`discA = exp(A·dt)` together with `discQ = symmetrize(discA·Φ12)`. -/
theorem discretize_AQ_taylor_five_terms {States : ℕ} (num : Numerics)
    (A Q : Matrix (Fin States) (Fin States) ℚ) (dt : ℚ) :
    discretize_AQ_taylor num A Q dt =
      (num.mexp (dt • A),
        symmetrize (num.mexp (dt • A) *
          (dt • symmetrize Q
            + (dt ^ 2 / 2) • series_term A (symmetrize Q) 1
            + (dt ^ 3 / 6) • series_term A (symmetrize Q) 2
            + (dt ^ 4 / 24) • series_term A (symmetrize Q) 3
            + (dt ^ 5 / 120) • series_term A (symmetrize Q) 4))) := by
  have hphi : ([2, 3, 4, 5].foldl (taylor_step A (symmetrize Q) dt)
      ⟨symmetrize Q, dt, A.transpose, dt • symmetrize Q⟩).phi12 =
      dt • symmetrize Q
        + (dt ^ 2 / 2) • series_term A (symmetrize Q) 1
        + (dt ^ 3 / 6) • series_term A (symmetrize Q) 2
        + (dt ^ 4 / 24) • series_term A (symmetrize Q) 3
        + (dt ^ 5 / 120) • series_term A (symmetrize Q) 4 := by
    generalize symmetrize Q = Qs
    have e1 : series_term A Qs 1 = -A * Qs + Qs * A.transpose ^ 1 := rfl
    have e2 : series_term A Qs 2 =
      -A * series_term A Qs 1 + Qs * A.transpose ^ 2 := rfl
    have e3 : series_term A Qs 3 =
      -A * series_term A Qs 2 + Qs * A.transpose ^ 3 := rfl
    have e4 : series_term A Qs 4 =
      -A * series_term A Qs 3 + Qs * A.transpose ^ 4 := rfl
    have p2 : A.transpose ^ 2 = A.transpose * A.transpose := pow_two _
    have p3 : A.transpose ^ 3 = A.transpose * A.transpose * A.transpose := by
      rw [pow_succ, p2]
    have p4 : A.transpose ^ 4 =
      A.transpose * A.transpose * A.transpose * A.transpose := by
      rw [pow_succ, p3]
    rw [e4, e3, e2, e1, pow_one, p2, p3, p4]
    simp only [List.foldl, taylor_step]
    module
  simp only [discretize_AQ_taylor, discretize_A]
  exact Prod.ext rfl (by rw [hphi])

end baboon_tracking
